import Mathlib

/-!
Shallow embedding of the proximal SDCA optimizer for linear models
(`sdca_ops.py`): sparse feature columns, option validation, the dual-state
table, the `minimize` training step, the proximal `update_weights` step,
predictions and regularized losses.  Tensors are embedded as lists of
rationals (reals where transcendental functions appear), weight variables
that may be partitioned as an inductive of either a plain tensor or a list
of partitions, and the native SDCA optimizer op as an abstract function
parameter.  Integer tensor arithmetic uses `Int.fdiv`/`Int.fmod`, the
floor semantics of TensorFlow's `//` and `%` on int64.
-/

/-- Example state tuple held by the dual-state table: (dual variable,
primal loss, dual loss, example weight). -/
abbrev ExampleState : Type := ℚ × ℚ × ℚ × ℚ

/-- Key produced by `sdca_fprint`: two int64 fingerprint words per example id. -/
abbrev FprintKey : Type := Int × Int

/-- A sparse feature column as represented by `_SparseFeatureColumn`:
example indices (int64), feature indices (int64) and optional feature
values (float32). -/
structure SparseFeatureColumn where
  exampleIndices : List Int
  featureIndices : List Int
  featureValues : Option (List ℚ)
  deriving DecidableEq

/-- Constructor `_SparseFeatureColumn.__init__`: converts the three arrays
to int64/int64/float32 tensors and stores them; the class has no other
operation than the three read-only properties. -/
def mkSparseFeatureColumn (e f : List Int) (v : Option (List ℚ)) : SparseFeatureColumn :=
  ⟨e, f, v⟩

/-- Feature values of a sparse column; a missing value tensor is treated
as all ones (`_SparseFeatureColumn` docstring: missing feature weights are
`1.0f`). -/
def sfcValues (c : SparseFeatureColumn) : List ℚ :=
  c.featureValues.getD (List.replicate c.featureIndices.length 1)

/-- Options dict of `_SDCAModel`. -/
structure SdcaOptions where
  lossType : String
  symmetricL1Regularization : ℚ
  symmetricL2Regularization : ℚ
  numLossPartitions : Option Nat
  numTableShards : Option Nat
  adaptive : Option Bool

/-- Getter `_num_loss_partitions`: defaults to 1. -/
def numLossPartitionsOf (o : SdcaOptions) : Nat := o.numLossPartitions.getD 1

/-- Getter `_adaptive`: defaults to true. -/
def adaptiveOf (o : SdcaOptions) : Bool := o.adaptive.getD true

/-- Getter `_num_table_shards`: defaults to 1 when unspecified or None. -/
def numTableShardsOf (o : SdcaOptions) : Nat := o.numTableShards.getD 1

/-- The five loss formulations accepted by `_SDCAModel.__init__`. -/
def supportedLosses : List String :=
  ["logistic_loss", "squared_loss", "hinge_loss", "smooth_hinge_loss", "poisson_loss"]

/-- ValueError raised by the constructor validation of `_SDCAModel`. -/
inductive InitError where
  | unsupportedLossType (lt : String)
  | l2NotPositive
  | l1Negative
  deriving DecidableEq

/-- Validation performed by `_SDCAModel.__init__` in source order: the
loss-type membership check, then the positivity check on
`symmetric_l2_regularization`, then the nonnegativity check on
`symmetric_l1_regularization`. -/
def sdcaInitCheck (o : SdcaOptions) : Except InitError Unit :=
  if o.lossType ∉ supportedLosses then
    Except.error (InitError.unsupportedLossType o.lossType)
  else if o.symmetricL2Regularization ≤ 0 then Except.error InitError.l2NotPositive
  else if o.symmetricL1Regularization < 0 then Except.error InitError.l1Negative
  else Except.ok ()

/-- A weight variable: either a plain `Variable` or a partitioned variable
(a list of partitions along the first axis). -/
inductive LinearVariable where
  | plain (v : List ℚ)
  | partitioned (parts : List (List ℚ))
  deriving DecidableEq

/-- Helper `_var_to_list`: wraps a plain variable in a singleton list. -/
def varToList : LinearVariable → List (List ℚ)
  | .plain v => [v]
  | .partitioned ps => ps

/-- Helper `_convert_n_to_tensor` on one variable: partitions are
concatenated along the first axis. -/
def varTensor : LinearVariable → List ℚ
  | .plain v => v
  | .partitioned ps => ps.flatten

/-- Examples dict handed to `_SDCAModel`. -/
structure Examples where
  sparseFeatures : List SparseFeatureColumn
  denseFeatures : List (List (List ℚ))
  exampleLabels : List ℚ
  exampleWeights : List ℚ
  exampleIds : List String

/-- Model state: the user-provided weight variables, the unshrunk slot
variables created by `_create_slots`, and the dual-state table. -/
structure SdcaState where
  sparseWeights : List LinearVariable
  denseWeights : List LinearVariable
  unshrunkSparse : List LinearVariable
  unshrunkDense : List LinearVariable
  table : List (FprintKey × ExampleState)

/-- Modelled from the spec: `_ShardedMutableDenseHashTable.lookup`
(`sharded_mutable_dense_hashtable.py` is not among the sources); the
sharded store behaves as one key-value table mapping a hashed example id
to a 4-tuple, with default value `[0, 0, 0, 0]` for keys never inserted. -/
def tableLookup (t : List (FprintKey × ExampleState)) (k : FprintKey) : ExampleState :=
  (List.lookup k t).getD (0, 0, 0, 0)

/-- Modelled from the spec: `_ShardedMutableDenseHashTable.insert`;
inserting a batch of key/value pairs overwrites existing entries, later
pairs taking precedence. -/
def tableInsertMany (t : List (FprintKey × ExampleState))
    (kvs : List (FprintKey × ExampleState)) : List (FprintKey × ExampleState) :=
  kvs.foldl (fun acc kv => kv :: acc) t

/-- Operation `tf.unique` on int feature indices: unique values in order
of first occurrence (`minimize` casts to int32 and back, the identity for
feature ids below 2^31). -/
def uniqueInt (l : List Int) : List Int :=
  l.foldl (fun acc x => if x ∈ acc then acc else acc ++ [x]) []

/-- Total first-dimension size of a partitioned variable, as computed by
`_get_first_dimension_size_statically`. -/
def numTotalIds (parts : List (List ℚ)) : Int := ((parts.map List.length).sum : Nat)

/-- Div-partitioning assignment computed in `minimize`:
`max(i // (ids_per_partition + 1), (i - extras) // ids_per_partition)`
with TensorFlow floor division. -/
def pAssign (idsPer extras i : Int) : Int :=
  max (Int.fdiv i (idsPer + 1)) (Int.fdiv (i - extras) idsPer)

/-- Within-partition id computed in `minimize`:
`where(p_assignments < extras, i % (ids_per + 1), (i - extras) % ids_per)`
with TensorFlow floor modulus. -/
def newId (idsPer extras i : Int) : Int :=
  if pAssign idsPer extras i < extras then Int.fmod i (idsPer + 1)
  else Int.fmod (i - extras) idsPer

/-- Operation `tf.dynamic_partition`: routes `data[m]` to output list
number `partitions[m]`. -/
def dynamicPartition {α : Type} (data : List α) (partitions : List Int) (num : Nat) :
    List (List α) :=
  (List.range num).map
    (fun (j : Nat) => ((data.zip partitions).filter (fun dp => dp.2 == (j : Int))).map Prod.fst)

/-- Operation `tf.gather` of the rows of `w` at the given int indices. -/
def gatherList (w : List ℚ) (ids : List Int) : List ℚ :=
  ids.map (fun i => w.getD i.toNat 0)

/-- Sequential indexed writes, the building block of `tf.dynamic_stitch`
(later writes to the same slot win). -/
def scatterWrites (init : List ℚ) (pairs : List (Nat × ℚ)) : List ℚ :=
  pairs.foldl (fun acc iv => acc.set iv.1 iv.2) init

/-- Operation `tf.dynamic_stitch`: `merged[indices[m][i]] = data[m][i]`,
with output size one more than the largest index. -/
def dynamicStitch (indices : List (List Nat)) (data : List (List ℚ)) : List ℚ :=
  let pairs := ((indices.zip data).map (fun pr => pr.1.zip pr.2)).flatten
  scatterWrites (List.replicate (pairs.foldr (fun pr m => max (pr.1 + 1) m) 0) 0) pairs

/-- Gathering of the current weights of a partitioned sparse variable in
`minimize`: div-partition the unique ids, gather from each partition, and
stitch the per-partition gathers back into the original id order. -/
def partitionRouting (wParts : List (List ℚ)) (flatIds : List Int) : List ℚ :=
  let num := wParts.length
  let n := numTotalIds wParts
  let idsPer := Int.fdiv n (num : Int)
  let extras := Int.fmod n (num : Int)
  let pas := flatIds.map (pAssign idsPer extras)
  let newIds := flatIds.map (newId idsPer extras)
  let gatherIds := dynamicPartition newIds pas num
  let partitionGathered :=
    (List.range num).map (fun p => gatherList (wParts.getD p []) (gatherIds.getD p []))
  let conditionIndices := dynamicPartition (List.range flatIds.length) pas num
  dynamicStitch conditionIndices partitionGathered

/-- One indexed addition of `tf.scatter_add`: adds the update to the row
named by its index. -/
def scatterStep (acc : List ℚ) (iu : Int × ℚ) : List ℚ :=
  acc.set iu.1.toNat (acc.getD iu.1.toNat 0 + iu.2)

/-- Operation `tf.scatter_add`: adds each update row to the variable row
named by its index, sequentially. -/
def scatter_add (w : List ℚ) (ids : List Int) (us : List ℚ) : List ℚ :=
  (ids.zip us).foldl scatterStep w

/-- Operation `tf.assign_add` of a delta to a dense weight tensor. -/
def assign_add (w u : List ℚ) : List ℚ := List.zipWith (· + ·) w u

/-- Update path `_get_partitioned_update_ops`: div-partition the delta
rows exactly as the gather did and scatter-add each block into its
partition. -/
def partitionedScatterAdd (parts : List (List ℚ)) (flatIds : List Int)
    (fullUpdate : List ℚ) : List (List ℚ) :=
  let num := parts.length
  let n := numTotalIds parts
  let idsPer := Int.fdiv n (num : Int)
  let extras := Int.fmod n (num : Int)
  let pas := flatIds.map (pAssign idsPer extras)
  let newIds := flatIds.map (newId idsPer extras)
  let gatherIds := dynamicPartition newIds pas num
  let updates := dynamicPartition fullUpdate pas num
  (List.range num).map
    (fun p => scatter_add (parts.getD p []) (gatherIds.getD p []) (updates.getD p []))

/-- Operation `tf.split` by explicit sizes. -/
def splitBySizes (u : List ℚ) : List Nat → List (List ℚ)
  | [] => []
  | s :: ss => u.take s :: splitBySizes (u.drop s) ss

/-- List `sparse_indices` computed in `minimize`: the unique feature
indices of each sparse feature column. -/
def sparseIndicesOf (ex : Examples) : List (List Int) :=
  ex.sparseFeatures.map (fun c => uniqueInt c.featureIndices)

/-- List `sparse_weights` computed in `minimize`: current unshrunk weights
gathered at the unique feature indices, through the partitioned routing
when the slot variable is partitioned. -/
def gatherSparseWeights (s : SdcaState) (ex : Examples) : List (List ℚ) :=
  (s.unshrunkSparse.zip (sparseIndicesOf ex)).map
    (fun wi => match wi.1 with
      | .plain v => gatherList v wi.2
      | .partitioned parts => partitionRouting parts wi.2)

/-- Arguments handed to the native `sdca_optimizer` op. -/
structure SdcaOpInput where
  sparseExampleIndices : List (List Int)
  sparseFeatureIndices : List (List Int)
  sparseFeatureValues : List (List ℚ)
  denseFeatures : List (List (List ℚ))
  exampleWeights : List ℚ
  exampleLabels : List ℚ
  sparseIndices : List (List Int)
  sparseWeights : List (List ℚ)
  denseWeights : List (List ℚ)
  exampleStateData : List ExampleState
  lossType : String
  l1 : ℚ
  l2 : ℚ
  numLossPartitions : Nat
  numInnerIterations : Nat
  adaptive : Bool

/-- The native optimizer op (external collaborator): from features,
labels, weights and dual state to (updated dual state, sparse weight
deltas, dense weight deltas). -/
def NativeOp : Type :=
  SdcaOpInput → List ExampleState × List (List ℚ) × List (List ℚ)

/-- The argument bundle `minimize` passes to the native op. -/
def minimizeOpInput (fprint : String → FprintKey) (o : SdcaOptions) (s : SdcaState)
    (ex : Examples) : SdcaOpInput where
  sparseExampleIndices := ex.sparseFeatures.map (fun c => c.exampleIndices)
  sparseFeatureIndices := ex.sparseFeatures.map (fun c => c.featureIndices)
  sparseFeatureValues := ex.sparseFeatures.filterMap (fun c => c.featureValues)
  denseFeatures := ex.denseFeatures
  exampleWeights := ex.exampleWeights
  exampleLabels := ex.exampleLabels
  sparseIndices := sparseIndicesOf ex
  sparseWeights := gatherSparseWeights s ex
  denseWeights := s.unshrunkDense.map varTensor
  exampleStateData := (ex.exampleIds.map fprint).map (tableLookup s.table)
  lossType := o.lossType
  l1 := o.symmetricL1Regularization
  l2 := o.symmetricL2Regularization
  numLossPartitions := numLossPartitionsOf o
  numInnerIterations := 1
  adaptive := adaptiveOf o

/-- Slot update for one sparse variable: `scatter_add` for a plain
variable, the partitioned scatter-add otherwise. -/
def applySparseVar (w : LinearVariable) (ids : List Int) (u : List ℚ) : LinearVariable :=
  match w with
  | .plain v => .plain (scatter_add v ids u)
  | .partitioned parts => .partitioned (partitionedScatterAdd parts ids u)

/-- Sparse slot update loop of `minimize`: zip of slots, unique indices
and sparse deltas (variables beyond the zip are untouched). -/
def applySparseUpdates : List LinearVariable → List (List Int) → List (List ℚ) →
    List LinearVariable
  | [], _, _ => []
  | ws, [], _ => ws
  | ws, _, [] => ws
  | w :: ws, ids :: idss, u :: us => applySparseVar w ids u :: applySparseUpdates ws idss us

/-- Dense slot update for one variable: `assign_add` of the delta, split
by partition sizes when partitioned. -/
def applyDenseVar (w : LinearVariable) (u : List ℚ) : LinearVariable :=
  match w with
  | .plain v => .plain (assign_add v u)
  | .partitioned parts =>
      .partitioned ((parts.zip (splitBySizes u (parts.map List.length))).map
        (fun pv => assign_add pv.1 pv.2))

/-- Dense slot update loop of `minimize`. -/
def applyDenseUpdates : List LinearVariable → List (List ℚ) → List LinearVariable
  | [], _ => []
  | ws, [] => ws
  | w :: ws, u :: us => applyDenseVar w u :: applyDenseUpdates ws us

/-- Training step `minimize`: hash the example ids, look up their dual
state, run the native op on the features, labels, weights, gathered
current weights and that dual state, insert the updated state back under
the same hashed ids and add the returned deltas to the unshrunk slots. -/
def minimize (fprint : String → FprintKey) (op : NativeOp) (o : SdcaOptions)
    (s : SdcaState) (ex : Examples) : SdcaState :=
  let r := op (minimizeOpInput fprint o s ex)
  { s with
    table := tableInsertMany s.table ((ex.exampleIds.map fprint).zip r.1)
    unshrunkSparse := applySparseUpdates s.unshrunkSparse (sparseIndicesOf ex) r.2.1
    unshrunkDense := applyDenseUpdates s.unshrunkDense r.2.2 }

/-- Operation `tf.math.sign` on floats: -1, 0 or 1. -/
def signQ (x : ℚ) : ℚ := if x < 0 then -1 else if 0 < x then 1 else 0

/-- The proximal shrinkage applied by `update_weights`:
`sign(v) * max(0, |v| - shrinkage)`. -/
def shrink (shrinkage x : ℚ) : ℚ := signQ x * max 0 (|x| - shrinkage)

/-- Elementwise map over every partition of a variable. -/
def mapVarElems (f : ℚ → ℚ) : LinearVariable → LinearVariable
  | .plain v => .plain (v.map f)
  | .partitioned ps => .partitioned (ps.map (fun p => p.map f))

/-- One `v.assign(sv)` copy of an unshrunk slot into its primary variable
(slots created by `_create_slots` always mirror the partitioning of their
primary, so the mixed cases cannot arise and leave the variable alone). -/
def copyFromSlot : LinearVariable → LinearVariable → LinearVariable
  | .plain _, .plain w => .plain w
  | .partitioned ps, .partitioned qs => .partitioned ((ps.zip qs).map Prod.snd)
  | v, _ => v

/-- Copy loop of `update_weights`: assign every unshrunk slot to its
corresponding user-provided variable. -/
def copyVars : List LinearVariable → List LinearVariable → List LinearVariable
  | [], _ => []
  | vs, [] => vs
  | v :: vs, sv :: svs => copyFromSlot v sv :: copyVars vs svs

/-- Weight publication step `update_weights`: copy all unshrunk slots into
the user-provided variables and, when l1 > 0, apply the proximal
shrinkage with `shrinkage = l1 / l2` to every weight component. -/
def update_weights (o : SdcaOptions) (s : SdcaState) : SdcaState :=
  let copied := { s with
    sparseWeights := copyVars s.sparseWeights s.unshrunkSparse
    denseWeights := copyVars s.denseWeights s.unshrunkDense }
  if 0 < o.symmetricL1Regularization then
    let sh := o.symmetricL1Regularization / o.symmetricL2Regularization
    { copied with
      sparseWeights := copied.sparseWeights.map (mapVarElems (shrink sh))
      denseWeights := copied.denseWeights.map (mapVarElems (shrink sh)) }
  else copied

/-- Structural agreement between one primary variable and its slot. -/
def varAlignedB : LinearVariable → LinearVariable → Bool
  | .plain _, .plain _ => true
  | .partitioned ps, .partitioned qs => ps.length == qs.length
  | _, _ => false

/-- Structural agreement between the primaries and the slots, always true
for slots built by `_create_slots`: same variable count and matching
partitioning. -/
def slotsAligned (s : SdcaState) : Prop :=
  s.sparseWeights.length = s.unshrunkSparse.length ∧
  s.denseWeights.length = s.unshrunkDense.length ∧
  (s.sparseWeights.zip s.unshrunkSparse).all (fun p => varAlignedB p.1 p.2) = true ∧
  (s.denseWeights.zip s.unshrunkDense).all (fun p => varAlignedB p.1 p.2) = true

/-- Operation `tf.math.segment_sum` (sorted segment ids): row s of the
output is the sum of the data entries whose segment id is s; the output
has one row per segment id up to the largest. -/
def segmentSum (data : List ℚ) (ids : List Int) : List ℚ :=
  (List.range (ids.foldr (fun i m => max (i.toNat + 1) m) 0)).map
    (fun (e : Nat) => (((data.zip ids).filter (fun di => di.2 == (e : Int))).map Prod.fst).sum)

/-- Operation `tf.pad` of a vector with trailing zeros up to the batch
size. -/
def padTo (xs : List ℚ) (b : Nat) : List ℚ := xs ++ List.replicate (b - xs.length) 0

/-- Elementwise addition of two prediction vectors (`predictions += ...`). -/
def addLists (a b : List ℚ) : List ℚ := List.zipWith (· + ·) a b

/-- Per-example contribution of one sparse feature column:
`segment_sum(gather(sv, feature_indices) * feature_values,
example_indices)` padded to the batch size. -/
def sparseColPrediction (sv : List ℚ) (c : SparseFeatureColumn) (b : Nat) : List ℚ :=
  padTo (segmentSum (List.zipWith (· * ·) (gatherList sv c.featureIndices) (sfcValues c))
    c.exampleIndices) b

/-- Row-by-row dot product. -/
def dotList (a b : List ℚ) : ℚ := (List.zipWith (· * ·) a b).sum

/-- Contribution `matmul(dense_features, expand_dims(dense_variable, -1))`
squeezed back to a vector. -/
def matVec (m : List (List ℚ)) (v : List ℚ) : List ℚ := m.map (fun row => dotList row v)

/-- Method `_linear_predictions`: w*x for every example of the batch. -/
def linear_predictions (s : SdcaState) (ex : Examples) : List ℚ :=
  let b := ex.exampleIds.length
  let afterSparse :=
    ((ex.sparseFeatures.zip (s.sparseWeights.map varTensor)).map
      (fun p => sparseColPrediction p.2 p.1 b)).foldl addLists (List.replicate b 0)
  ((ex.denseFeatures.zip (s.denseWeights.map varTensor)).map
    (fun p => matVec p.1 p.2)).foldl addLists afterSparse

/-- Logistic sigmoid applied by `predictions` for logistic loss. -/
noncomputable def sigmoidR (x : ℝ) : ℝ := 1 / (1 + Real.exp (-x))

/-- Method `predictions`: sigmoid of the linear prediction for logistic
loss, its exponential for poisson loss, and the raw linear prediction
otherwise. -/
noncomputable def predictions (o : SdcaOptions) (s : SdcaState) (ex : Examples) : List ℝ :=
  let result := (linear_predictions s ex).map (fun q => (q : ℝ))
  if o.lossType = "logistic_loss" then result.map sigmoidR
  else if o.lossType = "poisson_loss" then result.map Real.exp
  else result

/-- External op `sigmoid_cross_entropy_with_logits` in mathematical form:
`log(1 + exp(x)) - x * z` for logits x and labels z. -/
noncomputable def sigmoidCrossEntropyWithLogits (label logit : ℝ) : ℝ :=
  Real.log (1 + Real.exp logit) - logit * label

/-- External op `log_poisson_loss` (no Stirling correction):
`exp(c) - c * z` for log-input c and targets z. -/
noncomputable def logPoissonLoss (target logInput : ℝ) : ℝ :=
  Real.exp logInput - logInput * target

/-- Method `_l1_loss`: l1 times the sum of the absolute values of every
weight of every (sparse then dense) variable. -/
def l1_loss (o : SdcaOptions) (s : SdcaState) : ℚ :=
  o.symmetricL1Regularization *
    (((s.sparseWeights ++ s.denseWeights).map
      (fun var => ((varToList var).map (fun v => (v.map (fun x => |x|)).sum)).sum)).sum)

/-- Method `_l2_loss`: l2 times the sum of the squares of every weight,
halved. -/
def l2_loss (o : SdcaOptions) (s : SdcaState) : ℚ :=
  o.symmetricL2Regularization *
    (((s.sparseWeights ++ s.denseWeights).map
      (fun var => ((varToList var).map (fun v => (v.map (fun x => x * x)).sum)).sum)).sum) / 2

/-- Method `unregularized_loss`: weighted mean primal loss of the batch
for the configured loss type. -/
noncomputable def unregularized_loss (o : SdcaOptions) (s : SdcaState) (ex : Examples) : ℝ :=
  let preds := (linear_predictions s ex).map (fun q => (q : ℝ))
  let labels := ex.exampleLabels.map (fun q => (q : ℝ))
  let weights := ex.exampleWeights.map (fun q => (q : ℝ))
  if o.lossType = "logistic_loss" then
    (List.zipWith (· * ·) (List.zipWith sigmoidCrossEntropyWithLogits labels preds)
      weights).sum / weights.sum
  else if o.lossType = "poisson_loss" then
    (List.zipWith (· * ·) (List.zipWith logPoissonLoss labels preds) weights).sum
      / weights.sum
  else if o.lossType = "hinge_loss" ∨ o.lossType = "smooth_hinge_loss" then
    (List.zipWith (· * ·)
      (List.zipWith (fun l x => max 0 (1 - (2 * l - 1) * x)) labels preds) weights).sum
      / weights.sum
  else
    (List.zipWith (· * ·) (List.zipWith (fun l x => (l - x) * (l - x)) labels preds)
      weights).sum / (2 * weights.sum)

/-- Method `regularized_loss`: (l1 loss + l2 loss) divided by the summed
example weights, plus the unregularized loss. -/
noncomputable def regularized_loss (o : SdcaOptions) (s : SdcaState) (ex : Examples) : ℝ :=
  ((l1_loss o s + l2_loss o s : ℚ) : ℝ) / ((ex.exampleWeights.map (fun q => (q : ℝ))).sum)
    + unregularized_loss o s ex

/-- Modelled from the spec: the per-example prediction as the sum over the
sparse columns of the per-example dot products, plus the dense
matrix-vector products. -/
def specPerExamplePrediction (s : SdcaState) (ex : Examples) (e : Nat) : ℚ :=
  ((ex.sparseFeatures.zip (s.sparseWeights.map varTensor)).map
    (fun p => ((((List.zipWith (· * ·) (gatherList p.2 p.1.featureIndices)
      (sfcValues p.1)).zip p.1.exampleIndices).filter
        (fun di => di.2 == (e : Int))).map Prod.fst).sum)).sum
  + ((ex.denseFeatures.zip (s.denseWeights.map varTensor)).map
    (fun p => dotList (p.1.getD e []) p.2)).sum

/-- Modelled from the spec: sum of the absolute values of all model
weights. -/
def sumAbsWeights (s : SdcaState) : ℚ :=
  ((s.sparseWeights ++ s.denseWeights).map
    (fun var => ((varToList var).map (fun v => (v.map (fun x => |x|)).sum)).sum)).sum

/-- Modelled from the spec: sum of the squares of all model weights. -/
def sumSqWeights (s : SdcaState) : ℚ :=
  ((s.sparseWeights ++ s.denseWeights).map
    (fun var => ((varToList var).map (fun v => (v.map (fun x => x * x)).sum)).sum)).sum

/-- Spec-side partition size under div partitioning: `ids_per + 1` for the
first `extras` partitions, `ids_per` for the rest. -/
def partSize (idsPer extras q : Int) : Int := if q < extras then idsPer + 1 else idsPer

/-- Spec-side offset of partition q in the concatenated variable under div
partitioning. -/
def partStart (idsPer extras q : Int) : Int := q * idsPer + min q extras

/-- Helper: an aligned copy loop returns exactly the slots. -/
theorem copyVars_eq_of_aligned :
    ∀ (vs svs : List LinearVariable), vs.length = svs.length →
      (vs.zip svs).all (fun p => varAlignedB p.1 p.2) = true → copyVars vs svs = svs
  | [], [], _, _ => rfl
  | v :: vs, sv :: svs, hlen, hall => by
    simp only [List.zip_cons_cons, List.all_cons, Bool.and_eq_true] at hall
    have htail := copyVars_eq_of_aligned vs svs (by simpa using hlen) hall.2
    have hhead : copyFromSlot v sv = sv := by
      cases v with
      | plain a =>
        cases sv with
        | plain b => rfl
        | partitioned qs => simp [varAlignedB] at hall
      | partitioned ps =>
        cases sv with
        | plain b => simp [varAlignedB] at hall
        | partitioned qs =>
          have hq : ps.length = qs.length := by
            have := hall.1
            simpa [varAlignedB] using this
          simp only [copyFromSlot]
          exact congrArg LinearVariable.partitioned (List.map_snd_zip ps qs (le_of_eq hq.symm))
    simp [copyVars, hhead, htail]

/-- C6: a `_SparseFeatureColumn` is an immutable triple: the three
properties return exactly the (dtype-converted) construction arguments,
and the class offers no mutating operation. -/
theorem sparse_feature_column_immutable (e f : List Int) (v : Option (List ℚ)) :
    (mkSparseFeatureColumn e f v).exampleIndices = e ∧
    (mkSparseFeatureColumn e f v).featureIndices = f ∧
    (mkSparseFeatureColumn e f v).featureValues = v :=
  ⟨rfl, rfl, rfl⟩

/-- C5: the constructor accepts exactly the five supported loss
formulations: for a supported loss type the loss-type check never fires,
and for any other value it raises the unsupported-loss ValueError. -/
theorem loss_type_validation (o : SdcaOptions) :
    (o.lossType ∈ supportedLosses →
      ∀ lt, sdcaInitCheck o ≠ Except.error (InitError.unsupportedLossType lt)) ∧
    (o.lossType ∉ supportedLosses →
      sdcaInitCheck o = Except.error (InitError.unsupportedLossType o.lossType)) := by
  constructor
  · intro hmem lt
    simp only [sdcaInitCheck, hmem, not_true_eq_false, if_false]
    split
    · simp
    · split <;> simp
  · intro hmem
    simp [sdcaInitCheck, hmem]

/-- Witness for C5 at concrete options. -/
theorem loss_type_validation_witness :
    sdcaInitCheck ⟨"hinge_loss", 0, 1, none, none, none⟩ ≠
      Except.error (InitError.unsupportedLossType "hinge_loss") ∧
    sdcaInitCheck ⟨"exotic_loss", 0, 1, none, none, none⟩ =
      Except.error (InitError.unsupportedLossType "exotic_loss") :=
  ⟨(loss_type_validation _).1 (by decide) "hinge_loss",
   (loss_type_validation _).2 (by decide)⟩

/-- C8: the constructor validates the regularization options: a
nonpositive l2 raises a ValueError, a negative l1 raises a ValueError, and
for l2 > 0 and l1 >= 0 neither regularization check fails. -/
theorem regularization_validation (o : SdcaOptions) :
    (o.symmetricL2Regularization ≤ 0 → sdcaInitCheck o ≠ Except.ok ()) ∧
    (o.symmetricL1Regularization < 0 → sdcaInitCheck o ≠ Except.ok ()) ∧
    (0 < o.symmetricL2Regularization → 0 ≤ o.symmetricL1Regularization →
      sdcaInitCheck o ≠ Except.error InitError.l2NotPositive ∧
      sdcaInitCheck o ≠ Except.error InitError.l1Negative) := by
  refine ⟨?_, ?_, ?_⟩
  · intro h2
    by_cases hm : o.lossType ∈ supportedLosses
    · simp [sdcaInitCheck, hm, h2]
    · simp [sdcaInitCheck, hm]
  · intro h1
    by_cases hm : o.lossType ∈ supportedLosses
    · by_cases h2 : o.symmetricL2Regularization ≤ 0
      · simp [sdcaInitCheck, hm, h2]
      · simp [sdcaInitCheck, hm, h2, h1]
    · simp [sdcaInitCheck, hm]
  · intro h2 h1
    by_cases hm : o.lossType ∈ supportedLosses
    · simp [sdcaInitCheck, hm, not_le.mpr h2, not_lt.mpr h1]
    · simp [sdcaInitCheck, hm]

/-- Witness for C8 at concrete options. -/
theorem regularization_validation_witness :
    sdcaInitCheck ⟨"squared_loss", 0, -1, none, none, none⟩ ≠ Except.ok () ∧
    sdcaInitCheck ⟨"squared_loss", -1, 1, none, none, none⟩ ≠ Except.ok () ∧
    (sdcaInitCheck ⟨"squared_loss", 0, 1, none, none, none⟩ ≠
        Except.error InitError.l2NotPositive ∧
      sdcaInitCheck ⟨"squared_loss", 0, 1, none, none, none⟩ ≠
        Except.error InitError.l1Negative) :=
  ⟨(regularization_validation _).1 (by decide),
   (regularization_validation _).2.1 (by decide),
   (regularization_validation _).2.2 (by decide) (by decide)⟩

/-- C1: for strictly positive l1, `update_weights` copies every unshrunk
slot into its user-provided variable and then replaces every weight
component v by sign(v) * max(0, |v| - l1/l2); for l1 equal to zero it only
copies the unshrunk slots. -/
theorem update_weights_proximal (o : SdcaOptions) (s : SdcaState)
    (hal : slotsAligned s) :
    (0 < o.symmetricL1Regularization →
      (update_weights o s).sparseWeights =
        s.unshrunkSparse.map (mapVarElems
          (shrink (o.symmetricL1Regularization / o.symmetricL2Regularization))) ∧
      (update_weights o s).denseWeights =
        s.unshrunkDense.map (mapVarElems
          (shrink (o.symmetricL1Regularization / o.symmetricL2Regularization)))) ∧
    (o.symmetricL1Regularization = 0 →
      (update_weights o s).sparseWeights = s.unshrunkSparse ∧
      (update_weights o s).denseWeights = s.unshrunkDense) := by
  obtain ⟨hl1, hl2, ha1, ha2⟩ := hal
  have hc1 := copyVars_eq_of_aligned s.sparseWeights s.unshrunkSparse hl1 ha1
  have hc2 := copyVars_eq_of_aligned s.denseWeights s.unshrunkDense hl2 ha2
  constructor
  · intro hpos
    simp [update_weights, if_pos hpos, hc1, hc2]
  · intro hzero
    have hneg : ¬ 0 < o.symmetricL1Regularization := by
      rw [hzero]
      exact lt_irrefl 0
    simp [update_weights, if_neg hneg, hc1, hc2]

/-- Witness for C1 on a small aligned state, with l1 = 1 and l2 = 2. -/
theorem update_weights_proximal_witness :
    slotsAligned ⟨[LinearVariable.plain [5]], [LinearVariable.partitioned [[2], [0]]],
      [LinearVariable.plain [-3]], [LinearVariable.partitioned [[4], [1]]], []⟩ ∧
    (update_weights ⟨"squared_loss", 1, 2, none, none, none⟩
        ⟨[LinearVariable.plain [5]], [LinearVariable.partitioned [[2], [0]]],
          [LinearVariable.plain [-3]], [LinearVariable.partitioned [[4], [1]]],
          []⟩).sparseWeights =
      [LinearVariable.plain [-3]].map (mapVarElems (shrink ((1 : ℚ) / 2))) := by
  refine ⟨⟨rfl, rfl, rfl, rfl⟩, ?_⟩
  have h := (update_weights_proximal ⟨"squared_loss", 1, 2, none, none, none⟩
    ⟨[LinearVariable.plain [5]], [LinearVariable.partitioned [[2], [0]]],
      [LinearVariable.plain [-3]], [LinearVariable.partitioned [[4], [1]]], []⟩
    ⟨rfl, rfl, rfl, rfl⟩).1 (by decide)
  exact h.1

/-- C2: one `minimize` step hashes the example ids, looks up their dual
state, invokes the native op on the features, labels, example weights,
gathered current weights and that dual state, inserts the returned state
under the same hashed ids and applies additive updates to the unshrunk
slots. -/
theorem minimize_sequence (fprint : String → FprintKey) (op : NativeOp)
    (o : SdcaOptions) (s : SdcaState) (ex : Examples) :
    minimize fprint op o s ex =
      { s with
        table := tableInsertMany s.table
          ((ex.exampleIds.map fprint).zip (op (minimizeOpInput fprint o s ex)).1)
        unshrunkSparse := applySparseUpdates s.unshrunkSparse (sparseIndicesOf ex)
          (op (minimizeOpInput fprint o s ex)).2.1
        unshrunkDense := applyDenseUpdates s.unshrunkDense
          (op (minimizeOpInput fprint o s ex)).2.2 } ∧
    (minimizeOpInput fprint o s ex).exampleStateData =
      (ex.exampleIds.map fprint).map (tableLookup s.table) ∧
    (minimizeOpInput fprint o s ex).sparseWeights = gatherSparseWeights s ex ∧
    (minimizeOpInput fprint o s ex).denseWeights = s.unshrunkDense.map varTensor ∧
    (minimizeOpInput fprint o s ex).sparseExampleIndices =
      ex.sparseFeatures.map (fun c => c.exampleIndices) ∧
    (minimizeOpInput fprint o s ex).sparseFeatureIndices =
      ex.sparseFeatures.map (fun c => c.featureIndices) ∧
    (minimizeOpInput fprint o s ex).denseFeatures = ex.denseFeatures ∧
    (minimizeOpInput fprint o s ex).exampleLabels = ex.exampleLabels ∧
    (minimizeOpInput fprint o s ex).exampleWeights = ex.exampleWeights :=
  ⟨rfl, rfl, rfl, rfl, rfl, rfl, rfl, rfl, rfl⟩

/-- C10: the regularized loss is the unregularized loss plus
(l1 loss + l2 loss) divided by the summed example weights, where the l1
loss is l1 * sum|w| and the l2 loss is l2 * sum(w^2) / 2 over all model
weight variables. -/
theorem regularized_loss_decomposition (o : SdcaOptions) (s : SdcaState) (ex : Examples) :
    regularized_loss o s ex = unregularized_loss o s ex +
      ((l1_loss o s + l2_loss o s : ℚ) : ℝ) /
        ((ex.exampleWeights.map (fun q => (q : ℝ))).sum) ∧
    l1_loss o s = o.symmetricL1Regularization * sumAbsWeights s ∧
    l2_loss o s = o.symmetricL2Regularization * sumSqWeights s / 2 :=
  ⟨add_comm _ _, rfl, rfl⟩

/-- Helper: getD after setting the same (in-range) position. -/
theorem getD_set_self (l : List ℚ) (i : Nat) (a : ℚ) (h : i < l.length) :
    (l.set i a).getD i 0 = a := by
  simp [List.getD_eq_getElem?_getD, List.getElem?_set_self h]

/-- Helper: getD after setting a different position. -/
theorem getD_set_ne (l : List ℚ) (i j : Nat) (a : ℚ) (h : i ≠ j) :
    (l.set i a).getD j 0 = l.getD j 0 := by
  simp [List.getD_eq_getElem?_getD, List.getElem?_set_ne h]

/-- Helper: the scatter-add fold preserves the variable length. -/
theorem foldl_set_length (ps : List (Int × ℚ)) :
    ∀ w : List ℚ, (ps.foldl scatterStep w).length = w.length := by
  induction ps with
  | nil => intro w; rfl
  | cons p ps ih =>
    intro w
    rw [List.foldl_cons, ih (scatterStep w p)]
    simp [scatterStep]

/-- Helper: pointwise additivity of the scatter-add fold. -/
theorem foldl_set_getD (ps : List (Int × ℚ)) :
    ∀ w : List ℚ, (∀ p ∈ ps, 0 ≤ p.1 ∧ p.1.toNat < w.length) → ∀ j : Nat, j < w.length →
      (ps.foldl scatterStep w).getD j 0 =
        w.getD j 0 + ((ps.filter (fun iu => iu.1 == (j : Int))).map Prod.snd).sum := by
  induction ps with
  | nil => intro w _ j _; simp
  | cons p ps ih =>
    intro w hin j hj
    obtain ⟨hp0, hplt⟩ := hin p (List.mem_cons_self p ps)
    have hlenstep : (scatterStep w p).length = w.length := by simp [scatterStep]
    have hset : ∀ q ∈ ps, 0 ≤ q.1 ∧ q.1.toNat < (scatterStep w p).length := by
      intro q hq
      rw [hlenstep]
      exact hin q (List.mem_cons_of_mem p hq)
    have hj' : j < (scatterStep w p).length := by rw [hlenstep]; exact hj
    rw [List.foldl_cons, ih (scatterStep w p) hset j hj']
    by_cases hpj : p.1 == (j : Int)
    · have hpeq : p.1 = (j : Int) := eq_of_beq hpj
      have htn : p.1.toNat = j := by rw [hpeq]; exact Int.toNat_natCast j
      have hstep : (scatterStep w p).getD j 0 = w.getD j 0 + p.2 := by
        show (w.set p.1.toNat (w.getD p.1.toNat 0 + p.2)).getD j 0 = w.getD j 0 + p.2
        rw [htn]
        exact getD_set_self w j _ hj
      have hfil : List.filter (fun iu => iu.1 == (j : Int)) (p :: ps) =
          p :: List.filter (fun iu => iu.1 == (j : Int)) ps := by
        simp [List.filter_cons, hpj]
      rw [hstep, hfil, List.map_cons, List.sum_cons]
      ring
    · have hne : p.1.toNat ≠ j := by
        intro hcontra
        apply hpj
        have hpeq : p.1 = (j : Int) := by omega
        exact beq_iff_eq.mpr hpeq
      have hstep : (scatterStep w p).getD j 0 = w.getD j 0 := by
        show (w.set p.1.toNat (w.getD p.1.toNat 0 + p.2)).getD j 0 = w.getD j 0
        exact getD_set_ne w _ j _ hne
      have hfil : List.filter (fun iu => iu.1 == (j : Int)) (p :: ps) =
          List.filter (fun iu => iu.1 == (j : Int)) ps := by
        simp [List.filter_cons, hpj]
      rw [hstep, hfil]

/-- C7: the weight deltas of one pass reach only the unshrunk slots
(scatter_add for sparse, assign_add for dense, both purely additive), and
`minimize` leaves every user-provided weight variable unchanged. -/
theorem minimize_frame_effect (fprint : String → FprintKey) (op : NativeOp)
    (o : SdcaOptions) (s : SdcaState) (ex : Examples) (w : List ℚ) (ids : List Int)
    (us : List ℚ) (j : Nat) (hin : ∀ i ∈ ids, 0 ≤ i ∧ i.toNat < w.length)
    (hj : j < w.length) :
    (minimize fprint op o s ex).sparseWeights = s.sparseWeights ∧
    (minimize fprint op o s ex).denseWeights = s.denseWeights ∧
    (minimize fprint op o s ex).unshrunkSparse =
      applySparseUpdates s.unshrunkSparse (sparseIndicesOf ex)
        (op (minimizeOpInput fprint o s ex)).2.1 ∧
    (minimize fprint op o s ex).unshrunkDense =
      applyDenseUpdates s.unshrunkDense (op (minimizeOpInput fprint o s ex)).2.2 ∧
    (scatter_add w ids us).length = w.length ∧
    (scatter_add w ids us).getD j 0 =
      w.getD j 0 + (((ids.zip us).filter (fun iu => iu.1 == (j : Int))).map Prod.snd).sum ∧
    (∀ (a b : List ℚ) (m : Nat), m < a.length → m < b.length →
      (assign_add a b).getD m 0 = a.getD m 0 + b.getD m 0) := by
  refine ⟨rfl, rfl, rfl, rfl, foldl_set_length (ids.zip us) w, ?_, ?_⟩
  · have hzip : ∀ p ∈ ids.zip us, 0 ≤ p.1 ∧ p.1.toNat < w.length := by
      intro p hp
      exact hin p.1 (List.of_mem_zip hp).1
    exact foldl_set_getD (ids.zip us) w hzip j hj
  · intro a b m hma hmb
    have ha : a[m]? = some (a.getD m 0) := by
      rw [List.getElem?_eq_getElem hma]
      simp [List.getD_eq_getElem?_getD, List.getElem?_eq_getElem hma]
    have hb : b[m]? = some (b.getD m 0) := by
      rw [List.getElem?_eq_getElem hmb]
      simp [List.getD_eq_getElem?_getD, List.getElem?_eq_getElem hmb]
    have : (List.zipWith (· + ·) a b)[m]? = some (a.getD m 0 + b.getD m 0) := by
      rw [List.getElem?_zipWith, ha, hb]
    simp [assign_add, List.getD_eq_getElem?_getD, this]

/-- Witness for C7 on a concrete state, op and scatter target. -/
theorem minimize_frame_effect_witness :
    (minimize (fun _ => (2, 3)) (fun _ => ([(1, 0, 0, 1)], [[4]], [[5]]))
        ⟨"squared_loss", 0, 1, none, none, none⟩
        ⟨[LinearVariable.plain [7]], [], [LinearVariable.plain [0]], [], []⟩
        ⟨[], [], [1], [1], ["a"]⟩).sparseWeights = [LinearVariable.plain [7]] ∧
    (scatter_add [10, 20] [1] [5]).getD 1 0 =
      ([10, 20] : List ℚ).getD 1 0 +
        ((([(1 : Int)].zip [(5 : ℚ)]).filter (fun iu => iu.1 == ((1 : Nat) : Int))).map
          Prod.snd).sum := by
  have h := minimize_frame_effect (fun _ => (2, 3))
    (fun _ => ([(1, 0, 0, 1)], [[4]], [[5]]))
    ⟨"squared_loss", 0, 1, none, none, none⟩
    ⟨[LinearVariable.plain [7]], [], [LinearVariable.plain [0]], [], []⟩
    ⟨[], [], [1], [1], ["a"]⟩ [10, 20] [1] [5] 1 (by decide) (by decide)
  exact ⟨h.1, h.2.2.2.2.2.1⟩

/-- Helper: batch insertion prepends the reversed batch. -/
theorem tableInsertMany_eq (t kvs : List (FprintKey × ExampleState)) :
    tableInsertMany t kvs = kvs.reverse ++ t := by
  induction kvs generalizing t with
  | nil => rfl
  | cons kv rest ih =>
    simp only [tableInsertMany, List.foldl_cons, List.reverse_cons, List.append_assoc]
    simpa [tableInsertMany] using ih (kv :: t)

/-- Helper: lookup in a list with distinct keys finds any member pair. -/
theorem lookup_of_nodup_mem :
    ∀ (ps : List (FprintKey × ExampleState)) (k : FprintKey) (v : ExampleState),
      (ps.map Prod.fst).Nodup → (k, v) ∈ ps → List.lookup k ps = some v
  | [], _, _, _, h => by cases h
  | (k', v') :: rest, k, v, hnd, hmem => by
    simp only [List.map_cons, List.nodup_cons] at hnd
    rcases List.mem_cons.mp hmem with heq | htail
    · obtain ⟨hk, hv⟩ := Prod.mk.injEq .. ▸ heq
      subst hk hv
      simp
    · have hne : k ≠ k' := by
        intro hkk
        exact hnd.1 (hkk ▸ List.mem_map_of_mem Prod.fst htail)
      rw [List.lookup_cons]
      have : (k == k') = false := beq_false_of_ne hne
      simp only [this]
      exact lookup_of_nodup_mem rest k v hnd.2 htail

/-- C4: the dual-state store maps unseen keys to the default tuple
(0, 0, 0, 0), and after a `minimize` step the tuple stored under each
processed hashed example id is exactly the example-state update returned
by the optimizer op. -/
theorem dual_state_store (fprint : String → FprintKey) (op : NativeOp) (o : SdcaOptions)
    (s : SdcaState) (ex : Examples) (t : List (FprintKey × ExampleState)) (k : FprintKey)
    (hk : ∀ e ∈ t, e.1 ≠ k) (hnodup : (ex.exampleIds.map fprint).Nodup)
    (hlen : (op (minimizeOpInput fprint o s ex)).1.length = ex.exampleIds.length) :
    tableLookup t k = (0, 0, 0, 0) ∧
    ∀ m, m < ex.exampleIds.length →
      tableLookup (minimize fprint op o s ex).table
          ((ex.exampleIds.map fprint).getD m (0, 0)) =
        (op (minimizeOpInput fprint o s ex)).1.getD m (0, 0, 0, 0) := by
  constructor
  · have hnone : List.lookup k t = none := by
      rw [List.lookup_eq_none_iff]
      intro p hp
      simpa using (hk p hp).symm
    simp [tableLookup, hnone]
  · intro m hm
    set hashed := ex.exampleIds.map fprint with hhashed
    set esu := (op (minimizeOpInput fprint o s ex)).1 with hesu
    have hhl : hashed.length = ex.exampleIds.length := by simp [hhashed]
    have hml : m < hashed.length := by omega
    have hml2 : m < esu.length := by omega
    have hzm : (hashed.zip esu)[m]? = some (hashed.getD m (0, 0), esu.getD m (0, 0, 0, 0)) := by
      rw [List.getElem?_zip_eq_some]
      constructor
      · rw [List.getElem?_eq_getElem hml]
        simp [List.getD_eq_getElem?_getD, List.getElem?_eq_getElem hml]
      · rw [List.getElem?_eq_getElem hml2]
        simp [List.getD_eq_getElem?_getD, List.getElem?_eq_getElem hml2]
    have hmem : (hashed.getD m (0, 0), esu.getD m (0, 0, 0, 0)) ∈ hashed.zip esu :=
      List.getElem?_mem hzm
    have hkeys : ((hashed.zip esu).map Prod.fst) = hashed :=
      List.map_fst_zip hashed esu (by omega)
    have hnodrev : (((hashed.zip esu).reverse).map Prod.fst).Nodup := by
      rw [List.map_reverse, hkeys]
      exact List.nodup_reverse.mpr hnodup
    have hmemrev : (hashed.getD m (0, 0), esu.getD m (0, 0, 0, 0)) ∈ (hashed.zip esu).reverse :=
      List.mem_reverse.mpr hmem
    have hfound := lookup_of_nodup_mem ((hashed.zip esu).reverse) (hashed.getD m (0, 0))
      (esu.getD m (0, 0, 0, 0)) hnodrev hmemrev
    have htbl : (minimize fprint op o s ex).table = (hashed.zip esu).reverse ++ s.table := by
      simp only [minimize]
      exact tableInsertMany_eq s.table (hashed.zip esu)
    rw [htbl]
    unfold tableLookup
    rw [List.lookup_append, hfound]
    rfl

/-- Witness for C4 on a one-example batch. -/
theorem dual_state_store_witness :
    tableLookup [((7, 7), (1, 1, 1, 1))] (2, 3) = (0, 0, 0, 0) ∧
    tableLookup (minimize (fun _ => (2, 3)) (fun _ => ([(1, 2, 3, 4)], [], []))
        ⟨"squared_loss", 0, 1, none, none, none⟩ ⟨[], [], [], [], []⟩
        ⟨[], [], [1], [1], ["a"]⟩).table
        ((["a"].map (fun _ => ((2 : Int), (3 : Int)))).getD 0 (0, 0)) =
      ((fun (_ : SdcaOpInput) => ([((1 : ℚ), (2 : ℚ), (3 : ℚ), (4 : ℚ))],
        ([] : List (List ℚ)), ([] : List (List ℚ))))
          (minimizeOpInput (fun _ => (2, 3)) ⟨"squared_loss", 0, 1, none, none, none⟩
            ⟨[], [], [], [], []⟩ ⟨[], [], [1], [1], ["a"]⟩)).1.getD 0 (0, 0, 0, 0) := by
  have h := dual_state_store (fun _ => (2, 3)) (fun _ => ([(1, 2, 3, 4)], [], []))
    ⟨"squared_loss", 0, 1, none, none, none⟩ ⟨[], [], [], [], []⟩
    ⟨[], [], [1], [1], ["a"]⟩ [((7, 7), (1, 1, 1, 1))] (2, 3)
    (by decide) (by decide) (by decide)
  exact ⟨h.1, h.2 0 (by decide)⟩

/-- Helper: getD of a mapped range below the bound. -/
theorem getD_range_map (g : Nat → ℚ) (n e : Nat) (he : e < n) :
    ((List.range n).map g).getD e 0 = g e := by
  rw [List.getD_eq_getElem?_getD, List.getElem?_map, List.getElem?_range he]
  rfl

/-- Helper: every segment id is below the computed segment count. -/
theorem lt_segment_count (ids : List Int) (i : Int) (hi : i ∈ ids) :
    i.toNat + 1 ≤ ids.foldr (fun x m => max (x.toNat + 1) m) 0 := by
  induction ids with
  | nil => cases hi
  | cons a as ih =>
    rcases List.mem_cons.mp hi with rfl | hmem
    · exact le_max_left _ _
    · exact le_trans (ih hmem) (le_max_right _ _)

/-- Helper: the segment count is bounded by any bound on the ids. -/
theorem segment_count_le (ids : List Int) (b : Nat) (hb : ∀ i ∈ ids, i.toNat < b) :
    ids.foldr (fun x m => max (x.toNat + 1) m) 0 ≤ b := by
  induction ids with
  | nil => exact Nat.zero_le b
  | cons a as ih =>
    have ha := hb a (List.mem_cons_self a as)
    have has : ∀ i ∈ as, i.toNat < b := fun i hi => hb i (List.mem_cons_of_mem a hi)
    simpa using And.intro ha (ih has)

/-- Helper: length of a padded vector. -/
theorem padTo_length (xs : List ℚ) (b : Nat) (h : xs.length ≤ b) :
    (padTo xs b).length = b := by
  simp only [padTo, List.length_append, List.length_replicate]
  omega

/-- Helper: the segment-sum output length is the segment count. -/
theorem segmentSum_length (data : List ℚ) (ids : List Int) :
    (segmentSum data ids).length = ids.foldr (fun x m => max (x.toNat + 1) m) 0 := by
  rw [segmentSum, List.length_map, List.length_range]

/-- Helper: a sparse column contribution is the per-example filtered sum. -/
theorem sparseColPrediction_getD (sv : List ℚ) (c : SparseFeatureColumn) (b e : Nat)
    (hb : ∀ i ∈ c.exampleIndices, 0 ≤ i ∧ i.toNat < b) (he : e < b) :
    (sparseColPrediction sv c b).getD e 0 =
      ((((List.zipWith (· * ·) (gatherList sv c.featureIndices) (sfcValues c)).zip
        c.exampleIndices).filter (fun di => di.2 == (e : Int))).map Prod.fst).sum := by
  have hn : (segmentSum (List.zipWith (· * ·) (gatherList sv c.featureIndices) (sfcValues c))
      c.exampleIndices).length =
      c.exampleIndices.foldr (fun x m => max (x.toNat + 1) m) 0 := segmentSum_length _ _
  have hnb : c.exampleIndices.foldr (fun x m => max (x.toNat + 1) m) 0 ≤ b :=
    segment_count_le c.exampleIndices b (fun i hi => (hb i hi).2)
  by_cases hcase : e < c.exampleIndices.foldr (fun x m => max (x.toNat + 1) m) 0
  · rw [sparseColPrediction, padTo, List.getD_append _ _ _ _ (by rw [hn]; exact hcase),
      segmentSum]
    exact getD_range_map _ _ e hcase
  · push_neg at hcase
    rw [sparseColPrediction, padTo, List.getD_append_right _ _ _ _ (by rw [hn]; exact hcase)]
    have hleft : (List.replicate
        (b - (segmentSum (List.zipWith (· * ·) (gatherList sv c.featureIndices) (sfcValues c))
          c.exampleIndices).length) (0 : ℚ)).getD
        (e - (segmentSum (List.zipWith (· * ·) (gatherList sv c.featureIndices) (sfcValues c))
          c.exampleIndices).length) 0 = 0 := by
      rw [List.getD_eq_getElem?_getD, List.getElem?_replicate]
      split <;> rfl
    rw [hleft]
    have hfil : (((List.zipWith (· * ·) (gatherList sv c.featureIndices) (sfcValues c)).zip
        c.exampleIndices).filter (fun di => di.2 == (e : Int))) = [] := by
      rw [List.filter_eq_nil_iff]
      intro di hdi
      have hid : di.2 ∈ c.exampleIndices := (List.of_mem_zip hdi).2
      have h1 := lt_segment_count c.exampleIndices di.2 hid
      have h0 := (hb di.2 hid).1
      simp only [beq_iff_eq]
      intro hcontra
      rw [hcontra] at h1 h0
      simp only [Int.toNat_natCast] at h1
      omega
    rw [hfil]
    simp

/-- Helper: the prediction accumulation preserves the batch length. -/
theorem foldl_addLists_length (ls : List (List ℚ)) :
    ∀ acc : List ℚ, (∀ l ∈ ls, l.length = acc.length) →
      (ls.foldl addLists acc).length = acc.length := by
  induction ls with
  | nil => intro acc _; rfl
  | cons l ls ih =>
    intro acc hl
    have hll := hl l (List.mem_cons_self l ls)
    have hacc : (addLists acc l).length = acc.length := by
      simp [addLists, hll]
    rw [List.foldl_cons, ih (addLists acc l) (fun x hx => by
      rw [hacc]; exact hl x (List.mem_cons_of_mem l hx)), hacc]

/-- Helper: pointwise value of the prediction accumulation. -/
theorem foldl_addLists_getD (ls : List (List ℚ)) :
    ∀ acc : List ℚ, (∀ l ∈ ls, l.length = acc.length) → ∀ e : Nat, e < acc.length →
      (ls.foldl addLists acc).getD e 0 =
        acc.getD e 0 + (ls.map (fun l => l.getD e 0)).sum := by
  induction ls with
  | nil => intro acc _ e _; simp
  | cons l ls ih =>
    intro acc hl e he
    have hll := hl l (List.mem_cons_self l ls)
    have hacc : (addLists acc l).length = acc.length := by simp [addLists, hll]
    have hstep : (addLists acc l).getD e 0 = acc.getD e 0 + l.getD e 0 := by
      have hea : e < acc.length := he
      have hel : e < l.length := by omega
      have h1 : acc[e]? = some (acc.getD e 0) := by
        rw [List.getElem?_eq_getElem hea]
        simp [List.getD_eq_getElem?_getD, List.getElem?_eq_getElem hea]
      have h2 : l[e]? = some (l.getD e 0) := by
        rw [List.getElem?_eq_getElem hel]
        simp [List.getD_eq_getElem?_getD, List.getElem?_eq_getElem hel]
      have : (List.zipWith (· + ·) acc l)[e]? = some (acc.getD e 0 + l.getD e 0) := by
        rw [List.getElem?_zipWith, h1, h2]
      simp [addLists, List.getD_eq_getElem?_getD, this]
    rw [List.foldl_cons, ih (addLists acc l) (fun x hx => by
      rw [hacc]; exact hl x (List.mem_cons_of_mem l hx)) e (by omega), hstep,
      List.map_cons, List.sum_cons]
    ring

/-- Helper: pointwise value of a dense matrix-vector product. -/
theorem matVec_getD (df : List (List ℚ)) (dv : List ℚ) (e : Nat) (he : e < df.length) :
    (matVec df dv).getD e 0 = dotList (df.getD e []) dv := by
  rw [matVec, List.getD_eq_getElem?_getD, List.getElem?_map, List.getElem?_eq_getElem he]
  simp [List.getD_eq_getElem?_getD, List.getElem?_eq_getElem he]

/-- C9: `predictions` applies the sigmoid for logistic loss, the
exponential for poisson loss and nothing for the three other loss types,
and the linear prediction of each example is the sum of the sparse
per-example dot products and the dense matrix-vector products. -/
theorem predictions_formula (o : SdcaOptions) (s : SdcaState) (ex : Examples)
    (hei : ∀ c ∈ ex.sparseFeatures, ∀ i ∈ c.exampleIndices,
      0 ≤ i ∧ i.toNat < ex.exampleIds.length)
    (hdf : ∀ df ∈ ex.denseFeatures, df.length = ex.exampleIds.length) :
    (o.lossType = "logistic_loss" →
      predictions o s ex = (linear_predictions s ex).map (fun q => sigmoidR (q : ℝ))) ∧
    (o.lossType = "poisson_loss" →
      predictions o s ex = (linear_predictions s ex).map (fun q => Real.exp (q : ℝ))) ∧
    (o.lossType = "squared_loss" ∨ o.lossType = "hinge_loss" ∨
        o.lossType = "smooth_hinge_loss" →
      predictions o s ex = (linear_predictions s ex).map (fun q => (q : ℝ))) ∧
    (∀ e, e < ex.exampleIds.length →
      (linear_predictions s ex).getD e 0 = specPerExamplePrediction s ex e) := by
  refine ⟨?_, ?_, ?_, ?_⟩
  · intro h
    simp [predictions, h, List.map_map, Function.comp]
  · intro h
    simp [predictions, h, List.map_map, Function.comp]
  · rintro (h | h | h) <;> simp [predictions, h]
  · intro e he
    have hsparselen : ∀ l ∈ (ex.sparseFeatures.zip (s.sparseWeights.map varTensor)).map
        (fun p => sparseColPrediction p.2 p.1 ex.exampleIds.length),
        l.length = ex.exampleIds.length := by
      intro l hl
      obtain ⟨p, hp, rfl⟩ := List.mem_map.mp hl
      have hc : p.1 ∈ ex.sparseFeatures := (List.of_mem_zip hp).1
      have hb := hei p.1 hc
      have : (segmentSum (List.zipWith (· * ·) (gatherList p.2 p.1.featureIndices)
          (sfcValues p.1)) p.1.exampleIndices).length ≤ ex.exampleIds.length := by
        rw [segmentSum_length]
        exact segment_count_le _ _ (fun i hi => (hb i hi).2)
      exact padTo_length _ _ this
    have hdenselen : ∀ l ∈ (ex.denseFeatures.zip (s.denseWeights.map varTensor)).map
        (fun p => matVec p.1 p.2), l.length = ex.exampleIds.length := by
      intro l hl
      obtain ⟨p, hp, rfl⟩ := List.mem_map.mp hl
      have hc : p.1 ∈ ex.denseFeatures := (List.of_mem_zip hp).1
      simp [matVec, hdf p.1 hc]
    have hbase : (List.replicate ex.exampleIds.length (0 : ℚ)).length =
        ex.exampleIds.length := by simp
    have hsl : ∀ l ∈ (ex.sparseFeatures.zip (s.sparseWeights.map varTensor)).map
        (fun p => sparseColPrediction p.2 p.1 ex.exampleIds.length),
        l.length = (List.replicate ex.exampleIds.length (0 : ℚ)).length := by
      intro l hl; rw [hbase]; exact hsparselen l hl
    have hafterlen : ((((ex.sparseFeatures.zip (s.sparseWeights.map varTensor)).map
        (fun p => sparseColPrediction p.2 p.1 ex.exampleIds.length)).foldl addLists
          (List.replicate ex.exampleIds.length 0)).length) = ex.exampleIds.length := by
      rw [foldl_addLists_length _ _ hsl, hbase]
    have hdl : ∀ l ∈ (ex.denseFeatures.zip (s.denseWeights.map varTensor)).map
        (fun p => matVec p.1 p.2),
        l.length = (((ex.sparseFeatures.zip (s.sparseWeights.map varTensor)).map
          (fun p => sparseColPrediction p.2 p.1 ex.exampleIds.length)).foldl addLists
            (List.replicate ex.exampleIds.length 0)).length := by
      intro l hl; rw [hafterlen]; exact hdenselen l hl
    have hmain : (linear_predictions s ex).getD e 0 =
        ((((ex.sparseFeatures.zip (s.sparseWeights.map varTensor)).map
          (fun p => sparseColPrediction p.2 p.1 ex.exampleIds.length)).foldl addLists
            (List.replicate ex.exampleIds.length 0)).getD e 0) +
        (((ex.denseFeatures.zip (s.denseWeights.map varTensor)).map
          (fun p => matVec p.1 p.2)).map (fun l => l.getD e 0)).sum := by
      simp only [linear_predictions]
      exact foldl_addLists_getD _ _ hdl e (by rw [hafterlen]; exact he)
    have hsparse : ((((ex.sparseFeatures.zip (s.sparseWeights.map varTensor)).map
        (fun p => sparseColPrediction p.2 p.1 ex.exampleIds.length)).foldl addLists
          (List.replicate ex.exampleIds.length 0)).getD e 0) =
        (((ex.sparseFeatures.zip (s.sparseWeights.map varTensor)).map
          (fun p => sparseColPrediction p.2 p.1 ex.exampleIds.length)).map
            (fun l => l.getD e 0)).sum := by
      rw [foldl_addLists_getD _ _ hsl e (by rw [hbase]; exact he)]
      simp
    rw [hmain, hsparse]
    have hspmap : (((ex.sparseFeatures.zip (s.sparseWeights.map varTensor)).map
        (fun p => sparseColPrediction p.2 p.1 ex.exampleIds.length)).map
          (fun l => l.getD e 0)) =
        ((ex.sparseFeatures.zip (s.sparseWeights.map varTensor)).map
          (fun p => ((((List.zipWith (· * ·) (gatherList p.2 p.1.featureIndices)
            (sfcValues p.1)).zip p.1.exampleIndices).filter
              (fun di => di.2 == (e : Int))).map Prod.fst).sum)) := by
      rw [List.map_map]
      apply List.map_congr_left
      intro p hp
      have hc : p.1 ∈ ex.sparseFeatures := (List.of_mem_zip hp).1
      exact sparseColPrediction_getD p.2 p.1 ex.exampleIds.length e (hei p.1 hc) he
    have hdmap : (((ex.denseFeatures.zip (s.denseWeights.map varTensor)).map
        (fun p => matVec p.1 p.2)).map (fun l => l.getD e 0)) =
        ((ex.denseFeatures.zip (s.denseWeights.map varTensor)).map
          (fun p => dotList (p.1.getD e []) p.2)) := by
      rw [List.map_map]
      apply List.map_congr_left
      intro p hp
      have hc : p.1 ∈ ex.denseFeatures := (List.of_mem_zip hp).1
      exact matVec_getD p.1 p.2 e (by rw [hdf p.1 hc]; exact he)
    rw [hspmap, hdmap]
    rfl

/-- Witness for C9 on a two-example batch with one sparse and one dense
feature. -/
theorem predictions_formula_witness :
    predictions ⟨"logistic_loss", 0, 1, none, none, none⟩
        ⟨[LinearVariable.plain [3, 4, 5]], [LinearVariable.plain [6]], [], [], []⟩
        ⟨[⟨[0, 1], [0, 2], some [1, 1/2]⟩], [[[1], [2]]], [0, 1], [1, 1], ["x", "y"]⟩ =
      (linear_predictions
        ⟨[LinearVariable.plain [3, 4, 5]], [LinearVariable.plain [6]], [], [], []⟩
        ⟨[⟨[0, 1], [0, 2], some [1, 1/2]⟩], [[[1], [2]]], [0, 1], [1, 1],
          ["x", "y"]⟩).map (fun q => sigmoidR (q : ℝ)) ∧
    (linear_predictions
        ⟨[LinearVariable.plain [3, 4, 5]], [LinearVariable.plain [6]], [], [], []⟩
        ⟨[⟨[0, 1], [0, 2], some [1, 1/2]⟩], [[[1], [2]]], [0, 1], [1, 1],
          ["x", "y"]⟩).getD 0 0 =
      specPerExamplePrediction
        ⟨[LinearVariable.plain [3, 4, 5]], [LinearVariable.plain [6]], [], [], []⟩
        ⟨[⟨[0, 1], [0, 2], some [1, 1/2]⟩], [[[1], [2]]], [0, 1], [1, 1], ["x", "y"]⟩ 0 := by
  have h := predictions_formula ⟨"logistic_loss", 0, 1, none, none, none⟩
    ⟨[LinearVariable.plain [3, 4, 5]], [LinearVariable.plain [6]], [], [], []⟩
    ⟨[⟨[0, 1], [0, 2], some [1, 1/2]⟩], [[[1], [2]]], [0, 1], [1, 1], ["x", "y"]⟩
    (by decide) (by decide)
  exact ⟨h.1 rfl, h.2.2.2 0 (by decide)⟩

/-- Helper: getD of a mapped range below the bound, any element type. -/
theorem getD_range_map_any {α : Type} (g : Nat → α) (n e : Nat) (d : α) (he : e < n) :
    ((List.range n).map g).getD e d = g e := by
  rw [List.getD_eq_getElem?_getD, List.getElem?_map, List.getElem?_range he]
  rfl

/-- Helper: one output list of `dynamic_partition` is the filtered data. -/
theorem dynamicPartition_getD {α : Type} (data : List α) (ps : List Int) (num : Nat)
    (j : Nat) (hj : j < num) (d : List α) :
    (dynamicPartition data ps num).getD j d =
      ((data.zip ps).filter (fun dp => dp.2 == (j : Int))).map Prod.fst := by
  rw [dynamicPartition]
  exact getD_range_map_any _ num j d hj

/-- Helper: zipping two outputs of `dynamic_partition` over aligned data
gives the partition of the zipped data. -/
theorem zip_filter_groups {α β : Type} (j : Int) :
    ∀ (ps : List Int) (xs : List α) (ys : List β), xs.length = ps.length →
      ys.length = ps.length →
      (((xs.zip ps).filter (fun dp => dp.2 == j)).map Prod.fst).zip
        (((ys.zip ps).filter (fun dp => dp.2 == j)).map Prod.fst) =
      (((xs.zip ys).zip ps).filter (fun dp => dp.2 == j)).map Prod.fst
  | [], xs, ys, hx, hy => by
    have hx' : xs = [] := List.length_eq_zero.mp hx
    have hy' : ys = [] := List.length_eq_zero.mp hy
    subst hx' hy'
    simp
  | p :: ps, [], ys, hx, _ => by simp at hx
  | p :: ps, x :: xs, [], _, hy => by simp at hy
  | p :: ps, x :: xs, y :: ys, hx, hy => by
    have hx' : xs.length = ps.length := by simpa using hx
    have hy' : ys.length = ps.length := by simpa using hy
    by_cases hpj : p == j
    · have f1 : ((x :: xs).zip (p :: ps)).filter (fun dp => dp.2 == j) =
          (x, p) :: (xs.zip ps).filter (fun dp => dp.2 == j) := by
        simp [List.filter_cons, hpj]
      have f2 : ((y :: ys).zip (p :: ps)).filter (fun dp => dp.2 == j) =
          (y, p) :: (ys.zip ps).filter (fun dp => dp.2 == j) := by
        simp [List.filter_cons, hpj]
      have f3 : (((x :: xs).zip (y :: ys)).zip (p :: ps)).filter (fun dp => dp.2 == j) =
          ((x, y), p) :: ((xs.zip ys).zip (p :: ps).tail).filter (fun dp => dp.2 == j) := by
        simp [List.filter_cons, hpj]
      rw [f1, f2, f3, List.map_cons, List.map_cons, List.map_cons, List.zip_cons_cons]
      rw [zip_filter_groups j ps xs ys hx' hy']
      rfl
    · have f1 : ((x :: xs).zip (p :: ps)).filter (fun dp => dp.2 == j) =
          (xs.zip ps).filter (fun dp => dp.2 == j) := by
        simp [List.filter_cons, hpj]
      have f2 : ((y :: ys).zip (p :: ps)).filter (fun dp => dp.2 == j) =
          (ys.zip ps).filter (fun dp => dp.2 == j) := by
        simp [List.filter_cons, hpj]
      have f3 : (((x :: xs).zip (y :: ys)).zip (p :: ps)).filter (fun dp => dp.2 == j) =
          ((xs.zip ys).zip ps).filter (fun dp => dp.2 == j) := by
        simp [List.filter_cons, hpj]
      rw [f1, f2, f3]
      exact zip_filter_groups j ps xs ys hx' hy'

/-- Helper: mapping the partition-dependent gather over one group equals
the group of the pointwise-gathered values. -/
theorem map_group_eq (f : Nat → Int → ℚ) (j : Nat) :
    ∀ (ps ys : List Int), ys.length = ps.length →
      ((((ys.zip ps).filter (fun dp => dp.2 == (j : Int))).map Prod.fst).map (f j)) =
      ((((ys.zip ps).map (fun yp => f yp.2.toNat yp.1)).zip ps).filter
        (fun dp => dp.2 == (j : Int))).map Prod.fst
  | [], ys, hy => by
    have hy' : ys = [] := List.length_eq_zero.mp hy
    subst hy'
    simp
  | p :: ps, [], hy => by simp at hy
  | p :: ps, y :: ys, hy => by
    have hy' : ys.length = ps.length := by simpa using hy
    by_cases hpj : p == (j : Int)
    · have hpeq : p = (j : Int) := eq_of_beq hpj
      have f1 : ((y :: ys).zip (p :: ps)).filter (fun dp => dp.2 == (j : Int)) =
          (y, p) :: (ys.zip ps).filter (fun dp => dp.2 == (j : Int)) := by
        simp [List.filter_cons, hpj]
      have f2 : ((((y :: ys).zip (p :: ps)).map (fun yp => f yp.2.toNat yp.1)).zip
            (p :: ps)).filter (fun dp => dp.2 == (j : Int)) =
          (f p.toNat y, p) ::
            (((ys.zip ps).map (fun yp => f yp.2.toNat yp.1)).zip ps).filter
              (fun dp => dp.2 == (j : Int)) := by
        simp [List.filter_cons, hpj]
      rw [f1, f2, List.map_cons, List.map_cons]
      rw [map_group_eq f j ps ys hy']
      have hfy : f j y = f p.toNat y := by rw [hpeq, Int.toNat_natCast]
      rw [hfy, List.map_cons]
    · have f1 : ((y :: ys).zip (p :: ps)).filter (fun dp => dp.2 == (j : Int)) =
          (ys.zip ps).filter (fun dp => dp.2 == (j : Int)) := by
        simp [List.filter_cons, hpj]
      have f2 : ((((y :: ys).zip (p :: ps)).map (fun yp => f yp.2.toNat yp.1)).zip
            (p :: ps)).filter (fun dp => dp.2 == (j : Int)) =
          (((ys.zip ps).map (fun yp => f yp.2.toNat yp.1)).zip ps).filter
            (fun dp => dp.2 == (j : Int)) := by
        simp [List.filter_cons, hpj]
      rw [f1, f2]
      exact map_group_eq f j ps ys hy'

/-- Helper: a member of a zip with a range is a position-value pair. -/
theorem mem_zip_range {α : Type} (d : α) (l : List α) (n : Nat) (pr : Nat × α)
    (hmem : pr ∈ (List.range n).zip l) :
    pr.1 < n ∧ pr.1 < l.length ∧ pr.2 = l.getD pr.1 d := by
  obtain ⟨i, hi⟩ := List.mem_iff_getElem?.mp hmem
  rw [List.getElem?_zip_eq_some] at hi
  obtain ⟨h1, h2⟩ := hi
  have hilen : i < n := by
    have := List.getElem?_eq_some_iff.mp h1
    simpa using this.1
  have hval : pr.1 = i := by
    rw [List.getElem?_range hilen] at h1
    exact (Option.some.injEq _ _ ▸ h1).symm
  have hllen : i < l.length := (List.getElem?_eq_some_iff.mp h2).1
  refine ⟨hval ▸ hilen, hval ▸ hllen, ?_⟩
  rw [hval, List.getD_eq_getElem?_getD, h2]
  rfl

/-- Helper: conversely, each position-value pair is in the range zip. -/
theorem zip_range_mem {α : Type} (d : α) (l : List α) (n : Nat) (m : Nat)
    (hm : m < n) (hml : m < l.length) :
    (m, l.getD m d) ∈ (List.range n).zip l := by
  have hsome : ((List.range n).zip l)[m]? = some (m, l.getD m d) := by
    rw [List.getElem?_zip_eq_some]
    constructor
    · exact List.getElem?_range hm
    · rw [List.getElem?_eq_getElem hml]
      simp [List.getD_eq_getElem?_getD, List.getElem?_eq_getElem hml]
  exact List.getElem?_mem hsome

/-- Helper: scatter writes preserve the output length. -/
theorem scatterWrites_length (pairs : List (Nat × ℚ)) :
    ∀ init : List ℚ, (scatterWrites init pairs).length = init.length := by
  induction pairs with
  | nil => intro init; rfl
  | cons pr rest ih =>
    intro init
    rw [scatterWrites, List.foldl_cons]
    have hre := ih (init.set pr.1 pr.2)
    rw [scatterWrites] at hre
    rw [hre, List.length_set]

/-- Helper: after scattering pairs that all agree with a reference vector,
every written slot holds the reference value. -/
theorem scatterWrites_getD (pairs : List (Nat × ℚ)) :
    ∀ (init vals : List ℚ), init.length = vals.length →
      (∀ pr ∈ pairs, pr.1 < vals.length ∧ pr.2 = vals.getD pr.1 0) → ∀ m : Nat,
      (scatterWrites init pairs).getD m 0 =
        if m ∈ pairs.map Prod.fst then vals.getD m 0 else init.getD m 0 := by
  induction pairs with
  | nil => intro init vals _ _ m; simp [scatterWrites]
  | cons pr rest ih =>
    intro init vals hlen hall m
    obtain ⟨hlt, hval⟩ := hall pr (List.mem_cons_self pr rest)
    have hset : (init.set pr.1 pr.2).length = vals.length := by
      rw [List.length_set]; exact hlen
    have htail : ∀ x ∈ rest, x.1 < vals.length ∧ x.2 = vals.getD x.1 0 :=
      fun x hx => hall x (List.mem_cons_of_mem pr hx)
    have hstep : scatterWrites init (pr :: rest) = scatterWrites (init.set pr.1 pr.2) rest := by
      rw [scatterWrites, List.foldl_cons, scatterWrites]
    rw [hstep, ih (init.set pr.1 pr.2) vals hset htail m]
    by_cases hmr : m ∈ rest.map Prod.fst
    · rw [if_pos hmr, if_pos (by
        simp only [List.map_cons, List.mem_cons]
        right
        exact hmr)]
    · by_cases hmp : m = pr.1
      · rw [if_neg hmr, if_pos (by rw [hmp]; simp)]
        rw [hmp, getD_set_self init pr.1 pr.2 (by omega)]
        exact hval
      · rw [if_neg hmr, if_neg (by
          simp only [List.map_cons, List.mem_cons]
          rintro (h | h)
          · exact hmp h
          · exact hmr h)]
        rw [getD_set_ne init pr.1 m pr.2 (fun hc => hmp hc.symm)]

/-- Helper: upper bound for the stitch output size computation. -/
theorem stitch_size_le (pairs : List (Nat × ℚ)) (b : Nat)
    (h : ∀ pr ∈ pairs, pr.1 + 1 ≤ b) :
    pairs.foldr (fun pr m => max (pr.1 + 1) m) 0 ≤ b := by
  induction pairs with
  | nil => exact Nat.zero_le b
  | cons pr rest ih =>
    have h1 := h pr (List.mem_cons_self pr rest)
    have h2 := ih (fun x hx => h x (List.mem_cons_of_mem pr hx))
    simpa using And.intro h1 h2

/-- Helper: lower bound for the stitch output size computation. -/
theorem le_stitch_size (pairs : List (Nat × ℚ)) (pr : Nat × ℚ) (h : pr ∈ pairs) :
    pr.1 + 1 ≤ pairs.foldr (fun x m => max (x.1 + 1) m) 0 := by
  induction pairs with
  | nil => cases h
  | cons x rest ih =>
    rcases List.mem_cons.mp h with rfl | hmem
    · exact le_max_left _ _
    · exact le_trans (ih hmem) (le_max_right _ _)

/-- Helper: extensionality for rational lists through getD. -/
theorem ext_getD (l1 l2 : List ℚ) (hlen : l1.length = l2.length)
    (h : ∀ m, m < l1.length → l1.getD m 0 = l2.getD m 0) : l1 = l2 := by
  apply List.ext_getElem hlen
  intro i h1 h2
  have hgd := h i h1
  rwa [List.getD_eq_getElem l1 0 h1, List.getD_eq_getElem l2 0 h2] at hgd

/-- Helper: stitching the partition of the positions against the partition
of the values reconstructs the values. -/
theorem stitch_partition (vals : List ℚ) (ps : List Int) (num : Nat)
    (hlen : ps.length = vals.length)
    (hps : ∀ q ∈ ps, 0 ≤ q ∧ q.toNat < num) :
    dynamicStitch (dynamicPartition (List.range vals.length) ps num)
      (dynamicPartition vals ps num) = vals := by
  have hpairs : (((dynamicPartition (List.range vals.length) ps num).zip
        (dynamicPartition vals ps num)).map (fun pr => pr.1.zip pr.2)).flatten =
      ((List.range num).map (fun (j : Nat) =>
        (((((List.range vals.length).zip vals).zip ps).filter
          (fun dp => dp.2 == (j : Int))).map Prod.fst))).flatten := by
    rw [dynamicPartition, dynamicPartition, List.zip_map', List.map_map]
    congr 1
    apply List.map_congr_left
    intro j _
    exact zip_filter_groups (j : Int) ps (List.range vals.length) vals
      (by simpa using hlen.symm) hlen.symm
  have hP1 : ∀ pr ∈ ((List.range num).map (fun (j : Nat) =>
      (((((List.range vals.length).zip vals).zip ps).filter
        (fun dp => dp.2 == (j : Int))).map Prod.fst))).flatten,
      pr.1 < vals.length ∧ pr.2 = vals.getD pr.1 0 := by
    intro pr hpr
    obtain ⟨L, hL, hprL⟩ := List.mem_flatten.mp hpr
    obtain ⟨j, _, rfl⟩ := List.mem_map.mp hL
    obtain ⟨x, hx, rfl⟩ := List.mem_map.mp hprL
    have hxzip : x ∈ (((List.range vals.length).zip vals).zip ps) :=
      (List.mem_filter.mp hx).1
    have hx1 : x.1 ∈ (List.range vals.length).zip vals := (List.of_mem_zip hxzip).1
    have := mem_zip_range (0 : ℚ) vals vals.length x.1 hx1
    exact ⟨this.1, this.2.2⟩
  have hP2 : ∀ m, m < vals.length → (m, vals.getD m 0) ∈
      ((List.range num).map (fun (j : Nat) =>
        (((((List.range vals.length).zip vals).zip ps).filter
          (fun dp => dp.2 == (j : Int))).map Prod.fst))).flatten := by
    intro m hm
    have hmp : m < ps.length := by omega
    have hq : ps.getD m 0 ∈ ps := by
      rw [List.getD_eq_getElem ps 0 hmp]
      exact List.getElem_mem hmp
    obtain ⟨hq0, hqlt⟩ := hps (ps.getD m 0) hq
    have hxsome : ((((List.range vals.length).zip vals).zip ps))[m]? =
        some ((m, vals.getD m 0), ps.getD m 0) := by
      rw [List.getElem?_zip_eq_some]
      constructor
      · rw [List.getElem?_zip_eq_some]
        constructor
        · exact List.getElem?_range hm
        · rw [List.getElem?_eq_getElem hm]
          simp [List.getD_eq_getElem?_getD, List.getElem?_eq_getElem hm]
      · rw [List.getElem?_eq_getElem hmp]
        simp [List.getD_eq_getElem?_getD, List.getElem?_eq_getElem hmp]
    have hxmem : ((m, vals.getD m 0), ps.getD m 0) ∈
        (((List.range vals.length).zip vals).zip ps) := List.getElem?_mem hxsome
    have hpred : ((((m, vals.getD m 0), ps.getD m 0)).2 == (((ps.getD m 0).toNat : Nat) : Int)) = true := by
      simp only [beq_iff_eq]
      exact (Int.toNat_of_nonneg hq0).symm
    apply List.mem_flatten.mpr
    refine ⟨(((((List.range vals.length).zip vals).zip ps).filter
      (fun dp => dp.2 == (((ps.getD m 0).toNat : Nat) : Int))).map Prod.fst), ?_, ?_⟩
    · exact List.mem_map_of_mem _ (List.mem_range.mpr hqlt)
    · exact List.mem_map_of_mem Prod.fst (List.mem_filter.mpr ⟨hxmem, hpred⟩)
  have hsz : (((List.range num).map (fun (j : Nat) =>
      (((((List.range vals.length).zip vals).zip ps).filter
        (fun dp => dp.2 == (j : Int))).map Prod.fst))).flatten).foldr
          (fun pr m => max (pr.1 + 1) m) 0 = vals.length := by
    have hub := stitch_size_le _ vals.length (fun pr hpr => (hP1 pr hpr).1)
    rcases Nat.eq_zero_or_pos vals.length with h0 | hpos
    · omega
    · have hlb := le_stitch_size _ (vals.length - 1, vals.getD (vals.length - 1) 0)
        (hP2 (vals.length - 1) (by omega))
      simp only at hlb
      omega
  simp only [dynamicStitch]
  rw [hpairs, hsz]
  apply ext_getD
  · rw [scatterWrites_length]
    simp
  · intro m hm
    rw [scatterWrites_length, List.length_replicate] at hm
    rw [scatterWrites_getD _ (List.replicate vals.length 0) vals (by simp) hP1 m]
    rw [if_pos (List.mem_map_of_mem Prod.fst (hP2 m hm))]

/-- Helper: correctness of the div-partitioning assignment and
within-partition id: the assignment is in range and the partition offset
plus the local id recovers the global id. -/
theorem pAssign_newId_spec (k ex p i : Int) (hk : 0 ≤ k) (hex : 0 ≤ ex)
    (hexp : ex < p) (h0 : 0 ≤ i) (hi : i < p * k + ex) :
    0 ≤ pAssign k ex i ∧ pAssign k ex i < p ∧ 0 ≤ newId k ex i ∧
    newId k ex i < partSize k ex (pAssign k ex i) ∧
    partStart k ex (pAssign k ex i) + newId k ex i = i := by
  rcases eq_or_lt_of_le hk with hk0 | hkpos
  · subst hk0
    have hie : i < ex := by
      have hx : p * 0 = 0 := mul_zero p
      omega
    have hpa : pAssign 0 ex i = i := by
      rw [pAssign, zero_add, Int.fdiv_one, Int.fdiv_zero]
      exact max_eq_left h0
    have hni : newId 0 ex i = 0 := by
      rw [newId, hpa, if_pos hie, zero_add, Int.fmod_one]
    refine ⟨?_, ?_, ?_, ?_, ?_⟩
    · rw [hpa]; exact h0
    · rw [hpa]; omega
    · rw [hni]
    · rw [hni, hpa, partSize, if_pos hie]; omega
    · rw [hni, hpa, partStart, min_eq_left (le_of_lt hie)]
      omega
  · have e1 : Int.fdiv i (k + 1) = i / (k + 1) := Int.fdiv_eq_ediv _ (by omega)
    have e2 : Int.fdiv (i - ex) k = (i - ex) / k := Int.fdiv_eq_ediv _ (by omega)
    have e3 : Int.fmod i (k + 1) = i % (k + 1) := Int.fmod_eq_emod _ (by omega)
    have e4 : Int.fmod (i - ex) k = (i - ex) % k := Int.fmod_eq_emod _ (by omega)
    obtain ⟨a, hadef⟩ : ∃ a, i / (k + 1) = a := ⟨_, rfl⟩
    obtain ⟨b, hbdef⟩ : ∃ b, (i - ex) / k = b := ⟨_, rfl⟩
    obtain ⟨r, hrdef⟩ : ∃ r, i % (k + 1) = r := ⟨_, rfl⟩
    obtain ⟨s, hsdef⟩ : ∃ s, (i - ex) % k = s := ⟨_, rfl⟩
    have hdm1 := Int.ediv_add_emod i (k + 1)
    have hdm2 := Int.ediv_add_emod (i - ex) k
    rw [hadef, hrdef] at hdm1
    rw [hbdef, hsdef] at hdm2
    have hr0 : 0 ≤ r := by rw [← hrdef]; exact Int.emod_nonneg i (by omega)
    have hr1 : r < k + 1 := by rw [← hrdef]; exact Int.emod_lt_of_pos i (by omega)
    have hs0 : 0 ≤ s := by rw [← hsdef]; exact Int.emod_nonneg _ (by omega)
    have hs1 : s < k := by rw [← hsdef]; exact Int.emod_lt_of_pos _ hkpos
    have ha0 : 0 ≤ a := by rw [← hadef]; exact Int.ediv_nonneg h0 (by omega)
    have hlin1 : k * a + a + r = i := by linear_combination hdm1
    have hlin2 : k * b + s = i - ex := by linear_combination hdm2
    have hepa : pAssign k ex i = max a b := by
      rw [pAssign, e1, e2, hadef, hbdef]
    by_cases hreg : i < ex * (k + 1)
    · have haex : a < ex := by
        rw [← hadef]
        exact (Int.ediv_lt_iff_lt_mul (by omega)).mpr hreg
      have hba : b ≤ a := by
        have hx : (a + 1) * k = k * a + k := by ring
        have hlt : i - ex < (a + 1) * k := by linarith
        have hblt : (i - ex) / k < a + 1 := (Int.ediv_lt_iff_lt_mul hkpos).mpr hlt
        omega
      have hpa : pAssign k ex i = a := by rw [hepa]; exact max_eq_left hba
      have hni : newId k ex i = r := by
        rw [newId, hpa, if_pos haex, e3, hrdef]
      refine ⟨?_, ?_, ?_, ?_, ?_⟩
      · rw [hpa]; exact ha0
      · rw [hpa]; omega
      · rw [hni]; exact hr0
      · rw [hni, hpa, partSize, if_pos haex]; exact hr1
      · rw [hni, hpa, partStart, min_eq_left (by omega : a ≤ ex)]
        linear_combination hlin1
    · push_neg at hreg
      have hbex : ex ≤ b := by
        rw [← hbdef]
        refine (Int.le_ediv_iff_mul_le hkpos).mpr ?_
        have hx : ex * (k + 1) = ex * k + ex := by ring
        linarith
      have hbp : b < p := by
        rw [← hbdef]
        refine (Int.ediv_lt_iff_lt_mul hkpos).mpr ?_
        linarith
      have hab : a ≤ b := by
        have hx : (b + 1) * (k + 1) = k * b + b + k + 1 := by ring
        have hlt : i < (b + 1) * (k + 1) := by linarith
        have halt : i / (k + 1) < b + 1 :=
          (Int.ediv_lt_iff_lt_mul (by omega : (0 : ℤ) < k + 1)).mpr hlt
        omega
      have hpa : pAssign k ex i = b := by rw [hepa]; exact max_eq_right hab
      have hni : newId k ex i = s := by
        rw [newId, hpa, if_neg (by omega : ¬ b < ex), e4, hsdef]
      refine ⟨?_, ?_, ?_, ?_, ?_⟩
      · rw [hpa]; omega
      · rw [hpa]; exact hbp
      · rw [hni]; exact hs0
      · rw [hni, hpa, partSize, if_neg (by omega : ¬ b < ex)]; exact hs1
      · rw [hni, hpa, partStart, min_eq_right (by omega : ex ≤ b)]
        linear_combination hlin2

/-- Helper: under the standard div-partition sizes, the offset of a
partition inside the concatenated variable is `partStart`. -/
theorem offset_eq_partStart (k ex : Int) (hex : 0 ≤ ex) (wParts : List (List ℚ))
    (hsz : ∀ j : Nat, j < wParts.length →
      ((wParts.getD j []).length : Int) = partSize k ex (j : Int)) :
    ∀ q : Nat, q ≤ wParts.length →
      ((((wParts.take q).map List.length).sum : Nat) : Int) = partStart k ex (q : Int) := by
  intro q
  induction q with
  | zero =>
    intro _
    simp [partStart, min_eq_left hex]
  | succ q ih =>
    intro hq1
    have hq : q < wParts.length := by omega
    have htake : wParts.take (q + 1) = wParts.take q ++ (wParts.getD q []) :: [] := by
      rw [List.take_succ, List.getElem?_eq_getElem hq]
      have : wParts.getD q [] = wParts[q] := List.getD_eq_getElem wParts [] hq
      rw [this]
      rfl
    rw [htake, List.map_append, List.sum_append]
    have hsum : ((((wParts.take q).map List.length).sum +
        ([(wParts.getD q [])].map List.length).sum : Nat) : Int) =
        ((((wParts.take q).map List.length).sum : Nat) : Int) +
          ((wParts.getD q []).length : Int) := by
      push_cast
      simp
    rw [hsum, ih (le_of_lt hq), hsz q hq]
    have hcast : (((q + 1 : Nat)) : Int) = (q : Int) + 1 := by push_cast; ring
    rw [hcast]
    rcases lt_or_le ((q : Int)) ex with hql | hql
    · rw [partStart, partStart, partSize, if_pos hql, min_eq_left (by omega : (q : Int) ≤ ex),
        min_eq_left (by omega : (q : Int) + 1 ≤ ex)]
      ring
    · rw [partStart, partStart, partSize, if_neg (by omega : ¬ (q : Int) < ex),
        min_eq_right hql, min_eq_right (by omega : ex ≤ (q : Int) + 1)]
      ring

/-- Helper: indexing the concatenation of the partitions at a partition
offset plus a local offset reads the partition entry. -/
theorem getD_flatten_offset :
    ∀ (parts : List (List ℚ)) (q off : Nat), q < parts.length →
      off < (parts.getD q []).length →
      parts.flatten.getD ((((parts.take q).map List.length).sum) + off) 0 =
        (parts.getD q []).getD off 0
  | [], q, off, hq, _ => by simp at hq
  | P :: ps, 0, off, _, hoff => by
    simp only [List.take_zero, List.map_nil, List.sum_nil, Nat.zero_add]
    rw [List.flatten_cons]
    exact List.getD_append P ps.flatten 0 off (by simpa using hoff)
  | P :: ps, q + 1, off, hq, hoff => by
    have hq' : q < ps.length := by simpa using hq
    rw [List.flatten_cons, List.take_succ_cons, List.map_cons, List.sum_cons]
    rw [List.getD_append_right P ps.flatten 0 _ (by omega)]
    have harith : P.length + ((ps.take q).map List.length).sum + off - P.length =
        ((ps.take q).map List.length).sum + off := by omega
    rw [harith]
    exact getD_flatten_offset ps q off hq' (by simpa using hoff)

/-- Helper: the routed partition and local id read the same weight as the
concatenated variable at the global id. -/
theorem routing_value (wParts : List (List ℚ)) (k ex : Int) (hp : 0 < wParts.length)
    (hkdef : k = Int.fdiv (numTotalIds wParts) (wParts.length : Int))
    (hexdef : ex = Int.fmod (numTotalIds wParts) (wParts.length : Int))
    (hsz : ∀ j : Nat, j < wParts.length →
      ((wParts.getD j []).length : Int) = partSize k ex (j : Int))
    (i : Int) (h0 : 0 ≤ i) (hi : i < numTotalIds wParts) :
    0 ≤ pAssign k ex i ∧ (pAssign k ex i).toNat < wParts.length ∧
    (wParts.getD (pAssign k ex i).toNat []).getD (newId k ex i).toNat 0 =
      wParts.flatten.getD i.toNat 0 := by
  have hn0 : 0 ≤ numTotalIds wParts := by
    rw [numTotalIds]
    exact Int.natCast_nonneg _
  have hplen : (0 : Int) < (wParts.length : Int) := by exact_mod_cast hp
  have hk : 0 ≤ k := by
    rw [hkdef, Int.fdiv_eq_ediv _ (le_of_lt hplen)]
    exact Int.ediv_nonneg hn0 (le_of_lt hplen)
  have hex : 0 ≤ ex := by
    rw [hexdef, Int.fmod_eq_emod _ (le_of_lt hplen)]
    exact Int.emod_nonneg _ (by omega)
  have hexp : ex < (wParts.length : Int) := by
    rw [hexdef, Int.fmod_eq_emod _ (le_of_lt hplen)]
    exact Int.emod_lt_of_pos _ hplen
  have hnke : (wParts.length : Int) * k + ex = numTotalIds wParts := by
    rw [hkdef, hexdef, Int.fdiv_eq_ediv _ (le_of_lt hplen),
      Int.fmod_eq_emod _ (le_of_lt hplen)]
    exact Int.ediv_add_emod _ _
  have hi' : i < (wParts.length : Int) * k + ex := by linarith
  obtain ⟨hpa0, hpap, hni0, hnilt, hsum⟩ :=
    pAssign_newId_spec k ex (wParts.length : Int) i hk hex hexp h0 hi'
  have hpan : (pAssign k ex i).toNat < wParts.length := by omega
  have hoff := offset_eq_partStart k ex hex wParts hsz (pAssign k ex i).toNat (le_of_lt hpan)
  have hcast : (((pAssign k ex i).toNat : Nat) : Int) = pAssign k ex i :=
    Int.toNat_of_nonneg hpa0
  rw [hcast] at hoff
  have hszpa := hsz (pAssign k ex i).toNat hpan
  rw [hcast] at hszpa
  have hoffb : (newId k ex i).toNat < (wParts.getD (pAssign k ex i).toNat []).length := by
    omega
  have hidx : (((wParts.take (pAssign k ex i).toNat).map List.length).sum) +
      (newId k ex i).toNat = i.toNat := by
    omega
  refine ⟨hpa0, hpan, ?_⟩
  rw [← hidx]
  exact (getD_flatten_offset wParts (pAssign k ex i).toNat (newId k ex i).toNat hpan hoffb).symm

/-- C3: for a partitioned sparse weight variable with the standard div
partition sizes, the routing in `minimize` assigns id i to partition
`max(i // (ids_per_partition + 1), (i - extras) // ids_per_partition)`,
and the dynamic partition of the unique ids followed by the per-partition
gathers and the dynamic stitch over the partitioned positions reconstructs
exactly the weights of the concatenated variable at those ids, in the
original id order. -/
theorem partitioned_routing_reconstruction (wParts : List (List ℚ)) (flatIds : List Int)
    (k ex : Int) (hp : 0 < wParts.length)
    (hkdef : k = Int.fdiv (numTotalIds wParts) (wParts.length : Int))
    (hexdef : ex = Int.fmod (numTotalIds wParts) (wParts.length : Int))
    (hsz : ∀ j : Nat, j < wParts.length →
      ((wParts.getD j []).length : Int) = partSize k ex (j : Int))
    (hids : ∀ i ∈ flatIds, 0 ≤ i ∧ i < numTotalIds wParts)
    (hnodup : flatIds.Nodup) :
    (∀ i ∈ flatIds,
      pAssign k ex i = max (Int.fdiv i (k + 1)) (Int.fdiv (i - ex) k)) ∧
    partitionRouting wParts flatIds = gatherList wParts.flatten flatIds := by
  constructor
  · intro i _
    rfl
  · have hroute := fun (i : Int) (hi : i ∈ flatIds) =>
      routing_value wParts k ex hp hkdef hexdef hsz i (hids i hi).1 (hids i hi).2
    simp only [partitionRouting]
    rw [← hkdef, ← hexdef]
    have hgat : (List.range wParts.length).map
        (fun p => gatherList (wParts.getD p [])
          ((dynamicPartition (flatIds.map (newId k ex)) (flatIds.map (pAssign k ex))
            wParts.length).getD p [])) =
        dynamicPartition (((flatIds.map (newId k ex)).zip (flatIds.map (pAssign k ex))).map
          (fun yp => (wParts.getD yp.2.toNat []).getD yp.1.toNat 0))
          (flatIds.map (pAssign k ex)) wParts.length := by
      rw [dynamicPartition]
      apply List.map_congr_left
      intro p hpmem
      have hplt : p < wParts.length := List.mem_range.mp hpmem
      rw [gatherList, getD_range_map_any _ wParts.length p [] hplt]
      exact map_group_eq (fun q y => (wParts.getD q []).getD y.toNat 0) p
        (flatIds.map (pAssign k ex)) (flatIds.map (newId k ex)) (by simp)
    rw [hgat]
    have hVlen : (((flatIds.map (newId k ex)).zip (flatIds.map (pAssign k ex))).map
        (fun yp => (wParts.getD yp.2.toNat []).getD yp.1.toNat 0)).length =
        flatIds.length := by simp
    have hlen2 : (flatIds.map (pAssign k ex)).length =
        (((flatIds.map (newId k ex)).zip (flatIds.map (pAssign k ex))).map
          (fun yp => (wParts.getD yp.2.toNat []).getD yp.1.toNat 0)).length := by simp
    have hpsb : ∀ q ∈ flatIds.map (pAssign k ex), 0 ≤ q ∧ q.toNat < wParts.length := by
      intro q hq
      obtain ⟨i, hi, rfl⟩ := List.mem_map.mp hq
      exact ⟨(hroute i hi).1, (hroute i hi).2.1⟩
    have hstitch := stitch_partition
      (((flatIds.map (newId k ex)).zip (flatIds.map (pAssign k ex))).map
        (fun yp => (wParts.getD yp.2.toNat []).getD yp.1.toNat 0))
      (flatIds.map (pAssign k ex)) wParts.length hlen2 hpsb
    rw [hVlen] at hstitch
    rw [hstitch]
    rw [List.zip_map', List.map_map, gatherList]
    apply List.map_congr_left
    intro i hi
    exact (hroute i hi).2.2

/-- Witness for C3 on two partitions of sizes 2 and 1 (n = 3, p = 2,
ids_per_partition = 1, extras = 1) and unique ids [2, 0]. -/
theorem partitioned_routing_reconstruction_witness :
    pAssign 1 1 2 = max (Int.fdiv 2 (1 + 1)) (Int.fdiv (2 - 1) 1) ∧
    partitionRouting [[10, 20], [30]] [2, 0] =
      gatherList ([[10, 20], [30]] : List (List ℚ)).flatten [2, 0] := by
  have h := partitioned_routing_reconstruction [[10, 20], [30]] [2, 0] 1 1
    (by decide) (by decide) (by decide) (by decide) (by decide) (by decide)
  exact ⟨h.1 2 (by decide), h.2⟩
